import Mathlib

/-!
Verification of the linear board game backend (`game/BoardGame.py`).

The Python module keeps a single mutable game state (turn, two player
positions, a tile → event-list table, optional winner), moves players by
die rolls, applies tile events, and persists the state in a line-oriented
text format.  We embed the state and each core function shallowly:
strings become lists of characters, the global mutable state becomes
explicit state passing, and file I/O becomes an `Option` of the file's
contents (`none` = missing file).
-/

namespace BoardGame

/-- Characters of a Python string. -/
abbrev Str := List Char

/-- The two fixed player identifiers (`"Player1"` / `"Player2"`). -/
inductive Player where
  | P1
  | P2
deriving Repr, DecidableEq

/-- `LAST_TILE = 100` -/
def LAST_TILE : Int := 100

/-- `TREASURE_MOVE = 10` -/
def TREASURE_MOVE : Int := 10

/-- `PORTAL_MOVE = -3` -/
def PORTAL_MOVE : Int := -3

/-- The `state` dict: turn, both positions, the events dict (an
insertion-ordered association list, as a Python dict), and the winner. -/
structure GameState where
  turn : Player
  pos1 : Int
  pos2 : Int
  events : List (Int × List Str)
  winner : Option Player
deriving Repr, DecidableEq

/-- `state["positions"][player]` -/
def posOf (st : GameState) : Player → Int
  | .P1 => st.pos1
  | .P2 => st.pos2

/-- `state["positions"][player] = v` -/
def setPos (st : GameState) : Player → Int → GameState
  | .P1, v => { st with pos1 := v }
  | .P2, v => { st with pos2 := v }

/-- The string stored for a player in the text format and in the dicts. -/
def playerStr : Player → Str
  | .P1 => "Player1".data
  | .P2 => "Player2".data

/-! ### Python string primitives -/

/-- Python whitespace as stripped by `str.strip()` (ASCII range). -/
def isSpace (c : Char) : Bool :=
  c = ' ' || c = '\t' || c = '\n' || c = '\r' || c = '\x0b' || c = '\x0c'

/-- `s.lstrip()` -/
def lstrip (s : Str) : Str := s.dropWhile fun c => isSpace c

/-- `s.rstrip()` -/
def rstrip (s : Str) : Str := ((s.reverse.dropWhile fun c => isSpace c)).reverse

/-- `s.strip()` -/
def strip (s : Str) : Str := lstrip (rstrip s)

/-- ASCII lowercasing of one character, as `str.lower()` does per char. -/
def lowerChar (c : Char) : Char :=
  if 'A' ≤ c && c ≤ 'Z' then Char.ofNat (c.toNat + 32) else c

/-- ASCII uppercasing of one character. -/
def upperChar (c : Char) : Char :=
  if 'a' ≤ c && c ≤ 'z' then Char.ofNat (c.toNat - 32) else c

/-- `s.lower()` -/
def lower (s : Str) : Str := s.map lowerChar

/-- `s.capitalize()`: first character uppercased, the rest lowercased. -/
def capitalize (s : Str) : Str :=
  match s with
  | [] => []
  | c :: rest => upperChar c :: rest.map lowerChar

/-- `s.startswith(pre)` -/
def startsWith : Str → Str → Bool
  | [], _ => true
  | _, [] => false
  | p :: ps, c :: cs => p = c && startsWith ps cs

/-- `c in s` for a single character -/
def containsChar (s : Str) (c : Char) : Bool := s.any fun d => d = c

/-- `s.split(sep)` for a one-character separator (Python semantics:
`"".split(",") = [""]`, empty pieces kept). -/
def splitOn (sep : Char) : Str → List Str
  | [] => [[]]
  | c :: rest =>
    if c = sep then [] :: splitOn sep rest
    else
      match splitOn sep rest with
      | [] => [[c]]
      | t :: ts => (c :: t) :: ts

/-- `s.split(":", 1)` as a pair (before the first colon, after it);
when no colon occurs the whole string is the left part. -/
def splitFirstColon : Str → Str × Str
  | [] => ([], [])
  | c :: rest =>
    if c = ':' then ([], rest)
    else
      let p := splitFirstColon rest
      (c :: p.1, p.2)

/-- `ln.split(":", 1)[1]` (only used by the source when a colon exists). -/
def afterColon (ln : Str) : Str := (splitFirstColon ln).2

/-- `sep.join(pieces)` -/
def joinSep (sep : Str) : List Str → Str
  | [] => []
  | [x] => x
  | x :: xs => x ++ sep ++ joinSep sep xs

/-! ### Python `int()` on decimal strings -/

/-- Is `c` a decimal digit. -/
def isDigitChar (c : Char) : Bool := '0' ≤ c && c ≤ '9'

/-- Value of a digit character. -/
def digitVal (c : Char) : Nat := c.toNat - 48

/-- Parse the remaining digit part after the first digit, allowing single
underscores between digits as Python's `int()` does. -/
def parseDigitsAux : Nat → Str → Option Nat
  | acc, [] => some acc
  | acc, c :: rest =>
    if isDigitChar c then parseDigitsAux (acc * 10 + digitVal c) rest
    else if c = '_' then
      match rest with
      | [] => none
      | d :: rest' =>
        if isDigitChar d then parseDigitsAux (acc * 10 + digitVal d) rest'
        else none
    else none

/-- Parse a nonempty digit string (no sign). -/
def parseDigits : Str → Option Nat
  | [] => none
  | c :: rest => if isDigitChar c then parseDigitsAux (digitVal c) rest else none

/-- Python `int(s)` on a decimal string: surrounding whitespace is ignored,
one optional sign, then a nonempty digit part. `none` models `ValueError`. -/
def pyIntParse (s : Str) : Option Int :=
  match strip s with
  | [] => none
  | c :: rest =>
    if c = '-' then (parseDigits rest).map fun n => -(Int.ofNat n)
    else if c = '+' then (parseDigits rest).map fun n => Int.ofNat n
    else (parseDigits (c :: rest)).map fun n => Int.ofNat n

/-- Decimal digit character for `d < 10`. -/
def digitToChar (d : Nat) : Char :=
  if d = 0 then '0' else if d = 1 then '1' else if d = 2 then '2'
  else if d = 3 then '3' else if d = 4 then '4' else if d = 5 then '5'
  else if d = 6 then '6' else if d = 7 then '7' else if d = 8 then '8'
  else '9'

/-- Digits of `n`, most significant first, with fuel (enough when `n ≤ fuel`). -/
def natToStrAux : Nat → Nat → Str
  | 0, _ => []
  | _ + 1, 0 => []
  | fuel + 1, n => natToStrAux fuel (n / 10) ++ [digitToChar (n % 10)]

/-- Python `str(n)` for a natural number. -/
def natToStr (n : Nat) : Str := if n = 0 then ['0'] else natToStrAux n n

/-- Python `str(i)` for an integer. -/
def intToStr (i : Int) : Str :=
  if i < 0 then '-' :: natToStr i.natAbs else natToStr i.toNat

/-! ### The events dict -/

/-- `d.get(k, [])` -/
def dictGet (d : List (Int × List Str)) (k : Int) : List Str :=
  match d with
  | [] => []
  | (k', v) :: rest => if k' = k then v else dictGet rest k

/-- `d.get(k)`: `none` when the key is absent. -/
def dictGetOpt (d : List (Int × List Str)) (k : Int) : Option (List Str) :=
  match d with
  | [] => none
  | (k', v) :: rest => if k' = k then some v else dictGetOpt rest k

/-- `d.setdefault(k, []).extend(vs)` -/
def dictExtend (d : List (Int × List Str)) (k : Int) (vs : List Str) :
    List (Int × List Str) :=
  match d with
  | [] => [(k, vs)]
  | (k', v) :: rest =>
    if k' = k then (k', v ++ vs) :: rest else (k', v) :: dictExtend rest k vs

/-- Python `==` on the events dicts: same keys, same value at each key
(order of insertion is irrelevant for dict equality). -/
def dictEqvB (d1 d2 : List (Int × List Str)) : Bool :=
  ((d1.map fun p => p.1).all fun k => decide (dictGetOpt d1 k = dictGetOpt d2 k)) &&
  ((d2.map fun p => p.1).all fun k => decide (dictGetOpt d2 k = dictGetOpt d1 k))

/-- Python `==` on whole states (dict comparison for `events`). -/
def pyStateEq (a b : GameState) : Bool :=
  decide (a.turn = b.turn) && decide (a.pos1 = b.pos1) &&
  decide (a.pos2 = b.pos2) && decide (a.winner = b.winner) &&
  dictEqvB a.events b.events

/-- Insert a key into a sorted list of keys (for Python `sorted`). -/
def insertSorted (k : Int) : List Int → List Int
  | [] => [k]
  | x :: xs => if k ≤ x then k :: x :: xs else x :: insertSorted k xs

/-- Python `sorted` on the key list of the events dict. -/
def sortInts (l : List Int) : List Int := l.foldr insertSorted []

/-! ### `parse_game_file` -/

/-- The default `parsed` dict the parser starts from (also the module's
initial `state`). -/
def defaultState : GameState :=
  { turn := .P1, pos1 := 0, pos2 := 0, events := [], winner := none }

/-- Loop state of the parsing loop: the `parsed` dict plus the `mode`
flag (`mode == "events"`). -/
structure ParseSt where
  st : GameState
  modeEvents : Bool
deriving Repr, DecidableEq

/-- One iteration of the line loop of `parse_game_file` (the line has
already been stripped when the file was read). -/
def processLine (s : ParseSt) (ln : Str) : ParseSt :=
  if ln.isEmpty || startsWith "#".data ln then s
  else if startsWith "turn:".data (lower ln) then
    let right := strip (afterColon ln)
    { s with st.turn :=
        if right = "Player1".data then Player.P1
        else if right = "Player2".data then Player.P2
        else Player.P1 }
  else if startsWith "player1:".data (lower ln) then
    { s with st.pos1 :=
        match pyIntParse (afterColon ln) with
        | some n => max 0 n
        | none => 0 }
  else if startsWith "player2:".data (lower ln) then
    { s with st.pos2 :=
        match pyIntParse (afterColon ln) with
        | some n => max 0 n
        | none => 0 }
  else if startsWith "events:".data (lower ln) then
    { s with modeEvents := true }
  else if s.modeEvents then
    if !containsChar ln ':' then s
    else
      let p := splitFirstColon ln
      match pyIntParse (strip p.1) with
      | none => s
      | some tile =>
        let evs := (splitOn ',' p.2).filterMap fun e =>
          if (strip e).isEmpty then none else some (capitalize (strip e))
        if evs.isEmpty then s
        else { s with st.events := dictExtend s.st.events tile evs }
  else s

/-- The line loop of `parse_game_file` over the stripped lines. -/
def rawParse (lines : List Str) : GameState :=
  (lines.foldl processLine ⟨defaultState, false⟩).st

/-- The clamping loop: `positions[p] = max(0, min(LAST_TILE, positions[p]))`. -/
def clampStage (st : GameState) : GameState :=
  { st with pos1 := max 0 (min LAST_TILE st.pos1),
            pos2 := max 0 (min LAST_TILE st.pos2) }

/-- The winner loop: for `p` in `(Player1, Player2)` in order, if
`positions[p] >= LAST_TILE` then `winner = p` and the position is forced
to `LAST_TILE`. -/
def winnerStage (st : GameState) : GameState :=
  let s1 :=
    if LAST_TILE ≤ st.pos1 then { st with winner := some Player.P1, pos1 := LAST_TILE }
    else st
  if LAST_TILE ≤ s1.pos2 then { s1 with winner := some Player.P2, pos2 := LAST_TILE }
  else s1

/-- `parse_game_file` on the list of stripped lines. -/
def parseLines (lines : List Str) : GameState :=
  winnerStage (clampStage (rawParse lines))

/-- `parse_game_file(path)`: `none` models a missing file; otherwise the
file contents are split into lines and each line stripped. -/
def parse_game_file (file : Option Str) : GameState :=
  match file with
  | none => defaultState
  | some content => parseLines ((splitOn '\n' content).map strip)

/-! ### `write_game_file` -/

/-- One `"<tile>: <ev1>, <ev2>, ..."` line of the serialized events table. -/
def eventLine (events : List (Int × List Str)) (tile : Int) : Str :=
  intToStr tile ++ ": ".data ++ joinSep ", ".data (dictGet events tile)

/-- `write_game_file`: the serialized text (the joined `lines` list). -/
def write_game_file (st : GameState) : Str :=
  let header : List Str :=
    [ "Turn: ".data ++ playerStr st.turn,
      "Player1: ".data ++ intToStr st.pos1,
      "Player2: ".data ++ intToStr st.pos2,
      [],
      "Events:".data ]
  let evLines :=
    if st.events.isEmpty then []
    else (sortInts (st.events.map fun p => p.1)).map (eventLine st.events)
  joinSep ['\n'] (header ++ evLines)

/-! ### `apply_events`, `attempt_move`, `switch_turn`, `handle_roll` -/

/-- Recognized-event handling of the apply loop: the canonical name
appended to `applied`, if any. -/
def recogName (e : Str) : Option Str :=
  if lower e = "treasure".data then some "Treasure".data
  else if lower e = "portal".data then some "Portal".data
  else none

/-- Positional effect of one stored event in the apply loop. -/
def eventDelta (e : Str) : Int :=
  if lower e = "treasure".data then TREASURE_MOVE
  else if lower e = "portal".data then PORTAL_MOVE
  else 0

/-- One iteration of the event loop of `apply_events`, on the running
`(pos, applied)` pair. -/
def applyStep (acc : Int × List Str) (ev : Str) : Int × List Str :=
  let evLower := lower ev
  if evLower = "treasure".data then (acc.1 + TREASURE_MOVE, acc.2 ++ ["Treasure".data])
  else if evLower = "portal".data then (acc.1 + PORTAL_MOVE, acc.2 ++ ["Portal".data])
  else acc

/-- `apply_events(player_name)`: returns the new state together with the
`(applied, pos)` result pair. -/
def apply_events (st : GameState) (p : Player) : GameState × List Str × Int :=
  let pos := posOf st p
  let evs := dictGet st.events pos
  let r := evs.foldl applyStep (pos, [])
  let pos2 := max 0 (min LAST_TILE r.1)
  let st1 := setPos st p pos2
  let st2 := if LAST_TILE ≤ pos2 then { st1 with winner := some p } else st1
  (st2, r.2, pos2)

/-- The dict returned by `attempt_move`. -/
inductive MoveResult where
  /-- `{"error": "Game already finished", "winner": w}` -/
  | err (winner : Option Player)
  /-- the normal result dict -/
  | ok (player : Player) (rolled : Int) (start movedTo : Int)
       (events : List Str) (final : Int) (winner : Option Player)
deriving Repr, DecidableEq

/-- `attempt_move(player_name, steps)`: returns the new state and the
result dict. -/
def attempt_move (st : GameState) (p : Player) (steps : Int) :
    GameState × MoveResult :=
  if st.winner.isSome then (st, .err st.winner)
  else
    let start := posOf st p
    let newPos := min (start + steps) LAST_TILE
    let st1 := setPos st p newPos
    if LAST_TILE ≤ newPos then
      let st2 := { st1 with winner := some p }
      (st2, .ok p steps start newPos [] newPos (some p))
    else
      let r := apply_events st1 p
      (r.1, .ok p steps start newPos r.2.1 r.2.2 r.1.winner)

/-- `switch_turn()` -/
def switch_turn (st : GameState) : GameState :=
  { st with turn := if st.turn = Player.P1 then Player.P2 else Player.P1 }

/-- The state transition of `handle_roll` for a given die value: the 400
check, `attempt_move` for the current turn player, then `switch_turn`
unless a winner was set (the best-effort save does not change the state). -/
def rollStep (st : GameState) (die : Int) : GameState × MoveResult :=
  if st.winner.isSome then (st, .err st.winner)
  else
    let r := attempt_move st st.turn die
    (if r.1.winner = none then switch_turn r.1 else r.1, r.2)

/-! ### Reachable states and the range invariant -/

/-- Both positions lie in `[0, LAST_TILE]`. -/
def InRange (st : GameState) : Prop :=
  0 ≤ st.pos1 ∧ st.pos1 ≤ LAST_TILE ∧ 0 ≤ st.pos2 ∧ st.pos2 ≤ LAST_TILE

/-- States the module can reach: any loaded/reloaded parse result, and
closure under the mutating operations. -/
inductive Reachable : GameState → Prop where
  | load (f : Option Str) : Reachable (parse_game_file f)
  | move (st : GameState) (p : Player) (steps : Int) :
      Reachable st → Reachable (attempt_move st p steps).1
  | events (st : GameState) (p : Player) :
      Reachable st → Reachable (apply_events st p).1
  | turn (st : GameState) : Reachable st → Reachable (switch_turn st)

/-! ### Well-formedness used by the round-trip claim -/

/-- The winner value the parser recomputes from the two (clamped)
positions: Player2 first, then Player1, else none — the order of the
winner loop read backwards. -/
def recomputedWinner (p1 p2 : Int) : Option Player :=
  if LAST_TILE ≤ p2 then some Player.P2
  else if LAST_TILE ≤ p1 then some Player.P1
  else none

/-- An event name that survives the serialize→parse trip verbatim:
nonempty, fixed under `strip` and `capitalize`, and free of the two
characters the format splits on (`','` within lines of the table, `'\n'`
between lines of the file). -/
def nameWF (n : Str) : Prop :=
  n ≠ [] ∧ strip n = n ∧ capitalize n = n ∧
  containsChar n ',' = false ∧ containsChar n '\n' = false

instance : DecidablePred nameWF := by
  intro n
  unfold nameWF
  infer_instance

/-- A well-formed events table: distinct keys (a real Python dict), every
tile's list nonempty, every stored name well-formed. -/
def eventsWF (E : List (Int × List Str)) : Prop :=
  (E.map fun pr => pr.1).Nodup ∧
  ∀ pr ∈ E, pr.2 ≠ [] ∧ ∀ n ∈ pr.2, nameWF n

instance : DecidablePred eventsWF := by
  intro E
  unfold eventsWF
  infer_instance

/-! ### Basic lemmas about the state operations -/

@[simp] lemma setPos_turn (st : GameState) (p : Player) (v : Int) :
    (setPos st p v).turn = st.turn := by cases p <;> rfl

@[simp] lemma setPos_winner (st : GameState) (p : Player) (v : Int) :
    (setPos st p v).winner = st.winner := by cases p <;> rfl

@[simp] lemma setPos_events (st : GameState) (p : Player) (v : Int) :
    (setPos st p v).events = st.events := by cases p <;> rfl

@[simp] lemma posOf_setPos (st : GameState) (p : Player) (v : Int) :
    posOf (setPos st p v) p = v := by cases p <;> rfl

lemma apply_events_turn (st : GameState) (p : Player) :
    (apply_events st p).1.turn = st.turn := by
  unfold apply_events
  dsimp only
  split <;> simp

lemma apply_events_winner (st : GameState) (p : Player) :
    (apply_events st p).1.winner = st.winner ∨ (apply_events st p).1.winner = some p := by
  unfold apply_events
  dsimp only
  split <;> simp

/-- The position `apply_events` writes for the moved player. -/
lemma apply_events_pos_self (st : GameState) (p : Player) :
    posOf (apply_events st p).1 p =
      max 0 (min LAST_TILE ((dictGet st.events (posOf st p)).foldl applyStep (posOf st p, [])).1) := by
  unfold apply_events
  dsimp only
  split
  · cases p <;> rfl
  · simp

/-- `apply_events` leaves the other player's position alone. -/
lemma apply_events_pos_other (st : GameState) (p q : Player) (h : q ≠ p) :
    posOf (apply_events st p).1 q = posOf st q := by
  unfold apply_events
  dsimp only
  cases p <;> cases q <;> first | exact absurd rfl h | (split <;> rfl)

@[simp] lemma switch_turn_winner (st : GameState) : (switch_turn st).winner = st.winner := rfl

@[simp] lemma switch_turn_turn (st : GameState) :
    (switch_turn st).turn = if st.turn = Player.P1 then Player.P2 else Player.P1 := rfl

lemma attempt_move_fst_turn (st : GameState) (p : Player) (steps : Int) :
    (attempt_move st p steps).1.turn = st.turn := by
  unfold attempt_move
  split
  · rfl
  · dsimp only
    split
    · simp
    · rw [apply_events_turn, setPos_turn]

lemma attempt_move_winner_of_none (st : GameState) (p : Player) (steps : Int)
    (hw : st.winner = none) :
    (attempt_move st p steps).1.winner = none ∨
    (attempt_move st p steps).1.winner = some p := by
  unfold attempt_move
  split
  · left; simpa using hw
  · dsimp only
    split
    · right; rfl
    · rcases apply_events_winner (setPos st p (min (posOf st p + steps) LAST_TILE)) p with h | h
      · left; rw [h, setPos_winner, hw]
      · right; exact h

lemma rollStep_fst (st : GameState) (die : Int) (hw : st.winner = none) :
    (rollStep st die).1 =
      if (attempt_move st st.turn die).1.winner = none
      then switch_turn (attempt_move st st.turn die).1
      else (attempt_move st st.turn die).1 := by
  unfold rollStep
  rw [hw]
  rfl

/-! ## C4: moves after the game has finished -/

/-- C4: whenever `state["winner"]` is already set, `attempt_move` returns the
"Game already finished" error dict carrying the current winner and performs
no state mutation at all. -/
theorem claim_C4_finished_atomicity (st : GameState) (p : Player) (steps : Int)
    (w : Player) (hw : st.winner = some w) :
    attempt_move st p steps = (st, MoveResult.err (some w)) := by
  unfold attempt_move
  rw [hw]
  rfl

theorem claim_C4_finished_atomicity_witness :
    attempt_move
        { turn := .P1, pos1 := 7, pos2 := 100, events := [(3, ["Portal".data])],
          winner := some .P2 } .P1 4 =
      ({ turn := .P1, pos1 := 7, pos2 := 100, events := [(3, ["Portal".data])],
          winner := some .P2 }, MoveResult.err (some .P2)) :=
  claim_C4_finished_atomicity _ .P1 4 .P2 rfl

/-! ## C2: the win clamp -/

/-- C2: from a state with no winner, a move with `start + steps ≥ LAST_TILE`
(steps a die value) sets the winner to the moving player and returns the
result dict with `final = LAST_TILE`, the winner, and an empty applied-events
list — event resolution is skipped on a winning move. -/
theorem claim_C2_win_clamp (st : GameState) (p : Player) (steps : Int)
    (hw : st.winner = none) (h1 : 1 ≤ steps) (h6 : steps ≤ 6)
    (hwin : LAST_TILE ≤ posOf st p + steps) :
    (attempt_move st p steps).1.winner = some p ∧
    (attempt_move st p steps).2 =
      MoveResult.ok p steps (posOf st p) LAST_TILE [] LAST_TILE (some p) := by
  unfold attempt_move
  rw [hw]
  have hmin : min (posOf st p + steps) LAST_TILE = LAST_TILE := min_eq_right hwin
  simp only [Option.isSome_none, Bool.false_eq_true, if_false, hmin, le_refl, if_true]
  exact ⟨trivial, trivial⟩

theorem claim_C2_win_clamp_witness :
    (attempt_move { turn := .P2, pos1 := 0, pos2 := 96, events := [],
                    winner := none } .P2 6).1.winner = some Player.P2 ∧
    (attempt_move { turn := .P2, pos1 := 0, pos2 := 96, events := [],
                    winner := none } .P2 6).2 =
      MoveResult.ok .P2 6 96 LAST_TILE [] LAST_TILE (some .P2) :=
  claim_C2_win_clamp _ .P2 6 rfl (by decide) (by decide) (by decide)

/-! ## C3: turn alternation -/

/-- C3: a roll step from a winner-free state toggles the turn exactly once
when it ends with no winner, and leaves the turn unchanged, with the rolling
player as winner, when it ends the game. -/
theorem claim_C3_turn_alternation (st : GameState) (die : Int)
    (hw : st.winner = none) (h1 : 1 ≤ die) (h6 : die ≤ 6) :
    ((rollStep st die).1.winner = none →
      (rollStep st die).1.turn = (if st.turn = Player.P1 then Player.P2 else Player.P1)) ∧
    (∀ w, (rollStep st die).1.winner = some w →
      (rollStep st die).1.turn = st.turn ∧ w = st.turn) := by
  have hfst := rollStep_fst st die hw
  rcases hcase : (attempt_move st st.turn die).1.winner with _ | w
  · rw [hfst, if_pos hcase]
    constructor
    · intro _
      rw [switch_turn_turn, attempt_move_fst_turn]
    · intro w hcontra
      rw [switch_turn_winner, hcase] at hcontra
      cases hcontra
  · rw [hfst, if_neg (by rw [hcase]; exact fun h => Option.noConfusion h)]
    constructor
    · intro hnone
      rw [hcase] at hnone
      cases hnone
    · intro w' hw'
      rw [hcase] at hw'
      have hwv : w = st.turn := by
        rcases attempt_move_winner_of_none st st.turn die hw with h | h
        · rw [h] at hcase; cases hcase
        · rw [h] at hcase; injection hcase with hh; exact hh.symm
      refine ⟨attempt_move_fst_turn st st.turn die, ?_⟩
      injection hw' with hh
      rw [← hh, hwv]

theorem claim_C3_turn_alternation_witness :
    ((rollStep { turn := .P1, pos1 := 10, pos2 := 20, events := [],
                 winner := none } 3).1.winner = none →
      (rollStep { turn := .P1, pos1 := 10, pos2 := 20, events := [],
                  winner := none } 3).1.turn =
        (if Player.P1 = Player.P1 then Player.P2 else Player.P1)) ∧
    (∀ w, (rollStep { turn := .P1, pos1 := 10, pos2 := 20, events := [],
                      winner := none } 3).1.winner = some w →
      (rollStep { turn := .P1, pos1 := 10, pos2 := 20, events := [],
                  winner := none } 3).1.turn = Player.P1 ∧ w = Player.P1) :=
  claim_C3_turn_alternation _ 3 rfl (by decide) (by decide)

/-! ### Character-level lemmas -/

lemma isSpace_eq_false_of_digit {c : Char} (h : isDigitChar c = true) : isSpace c = false := by
  cases hs : isSpace c with
  | false => rfl
  | true =>
    exfalso
    simp only [isSpace, Bool.or_eq_true, decide_eq_true_eq] at hs
    rcases hs with ((((rfl | rfl) | rfl) | rfl) | rfl) | rfl <;> simp [isDigitChar] at h

lemma not_upper_of_digit {c : Char} (h : isDigitChar c = true) : ('A' ≤ c && c ≤ 'Z') = false := by
  simp only [isDigitChar, Bool.and_eq_true, decide_eq_true_eq] at h
  simp only [Bool.and_eq_false_iff, decide_eq_false_iff_not]
  left
  intro hA
  exact absurd (lt_of_le_of_lt hA (lt_of_le_of_lt h.2 (show ('9':Char) < 'A' by decide)))
    (lt_irrefl 'A')

lemma lowerChar_digit {c : Char} (h : isDigitChar c = true) : lowerChar c = c := by
  simp [lowerChar, not_upper_of_digit h]

/-! ### How the parsing loop treats each shape of line -/

/-- If the line's first character is a digit or `'-'`, none of the keyword
branches fire: the line is handled by the events-table branch (or ignored
when the table has not started). -/
lemma processLine_head_plain (s : ParseSt) (c : Char) (rest : Str)
    (h : isDigitChar c = true ∨ c = '-') :
    processLine s (c :: rest) =
      (if s.modeEvents then
        (if !containsChar (c :: rest) ':' then s
         else
          let p := splitFirstColon (c :: rest)
          match pyIntParse (strip p.1) with
          | none => s
          | some tile =>
            let evs := (splitOn ',' p.2).filterMap fun e =>
              if (strip e).isEmpty then none else some (capitalize (strip e))
            if evs.isEmpty then s
            else { s with st.events := dictExtend s.st.events tile evs })
       else s) := by
  have hlc : lowerChar c = c := by
    rcases h with h | rfl
    · exact lowerChar_digit h
    · decide
  have hne : ∀ d : Char, isDigitChar d = false → d ≠ '-' → c ≠ d := by
    rintro d hd hdm rfl
    rcases h with h | h
    · rw [h] at hd; cases hd
    · exact hdm h
  unfold processLine
  rw [show (c :: rest).isEmpty = false from rfl]
  rw [show startsWith "#".data (c :: rest) = ('#' = c && startsWith [] rest) from rfl]
  rw [show lower (c :: rest) = lowerChar c :: lower rest from rfl, hlc]
  rw [show ∀ l, startsWith "turn:".data (c :: l) = ('t' = c && startsWith "urn:".data l)
      from fun _ => rfl]
  rw [show ∀ l, startsWith "player1:".data (c :: l) = ('p' = c && startsWith "layer1:".data l)
      from fun _ => rfl]
  rw [show ∀ l, startsWith "player2:".data (c :: l) = ('p' = c && startsWith "layer2:".data l)
      from fun _ => rfl]
  rw [show ∀ l, startsWith "events:".data (c :: l) = ('e' = c && startsWith "vents:".data l)
      from fun _ => rfl]
  have h35 : ('#' = c) = False := by
    simp only [eq_iff_iff, iff_false]
    exact fun hc => hne '#' (by decide) (by decide) hc.symm
  have ht : ('t' = c) = False := by
    simp only [eq_iff_iff, iff_false]
    exact fun hc => hne 't' (by decide) (by decide) hc.symm
  have hp : ('p' = c) = False := by
    simp only [eq_iff_iff, iff_false]
    exact fun hc => hne 'p' (by decide) (by decide) hc.symm
  have he : ('e' = c) = False := by
    simp only [eq_iff_iff, iff_false]
    exact fun hc => hne 'e' (by decide) (by decide) hc.symm
  simp only [h35, ht, hp, he, decide_False, Bool.false_and, Bool.false_or, if_false]
  rfl

/-- A line whose lowered form starts with `turn:` is always handled by the
`Turn:` branch, whatever the mode. -/
lemma processLine_turn_of (s : ParseSt) (ln : Str)
    (h : startsWith "turn:".data (lower ln) = true) :
    processLine s ln =
      { s with st.turn :=
          if strip (afterColon ln) = "Player1".data then Player.P1
          else if strip (afterColon ln) = "Player2".data then Player.P2
          else Player.P1 } := by
  obtain ⟨c, rest, rfl⟩ : ∃ c rest, ln = c :: rest := by
    cases ln with
    | nil => cases h
    | cons c rest => exact ⟨c, rest, rfl⟩
  rw [show lower (c :: rest) = lowerChar c :: lower rest from rfl] at h
  rw [show startsWith "turn:".data (lowerChar c :: lower rest) =
      ('t' = lowerChar c && startsWith "urn:".data (lower rest)) from rfl] at h
  obtain ⟨hc, htail⟩ := Bool.and_eq_true_iff.mp h
  have hc' : lowerChar c = 't' := (decide_eq_true_eq.mp hc).symm
  have hnh : c ≠ '#' := by
    rintro rfl
    exact absurd hc' (by decide)
  unfold processLine
  rw [show (c :: rest).isEmpty = false from rfl]
  rw [show startsWith "#".data (c :: rest) = ('#' = c && startsWith [] rest) from rfl]
  have h35 : ('#' = c) = False := by
    simp only [eq_iff_iff, iff_false]
    exact fun hcc => hnh hcc.symm
  rw [show lower (c :: rest) = lowerChar c :: lower rest from rfl, hc']
  simp only [h35, decide_False, Bool.false_and, Bool.false_or, if_false]
  rw [show startsWith "turn:".data ('t' :: lower rest) =
      ('t' = 't' && startsWith "urn:".data (lower rest)) from rfl]
  rw [htail]
  rfl

/-- A line whose lowered form starts with `player1:` is always handled by
the `Player1:` branch, whatever the mode — in particular also after the
`Events:` marker. -/
lemma processLine_player1_of (s : ParseSt) (ln : Str)
    (h : startsWith "player1:".data (lower ln) = true) :
    processLine s ln =
      { s with st.pos1 :=
          match pyIntParse (afterColon ln) with
          | some n => max 0 n
          | none => 0 } := by
  obtain ⟨c, rest, rfl⟩ : ∃ c rest, ln = c :: rest := by
    cases ln with
    | nil => cases h
    | cons c rest => exact ⟨c, rest, rfl⟩
  rw [show lower (c :: rest) = lowerChar c :: lower rest from rfl] at h
  rw [show startsWith "player1:".data (lowerChar c :: lower rest) =
      ('p' = lowerChar c && startsWith "layer1:".data (lower rest)) from rfl] at h
  obtain ⟨hc, htail⟩ := Bool.and_eq_true_iff.mp h
  have hc' : lowerChar c = 'p' := (decide_eq_true_eq.mp hc).symm
  have hnh : c ≠ '#' := by
    rintro rfl
    exact absurd hc' (by decide)
  unfold processLine
  rw [show (c :: rest).isEmpty = false from rfl]
  rw [show startsWith "#".data (c :: rest) = ('#' = c && startsWith [] rest) from rfl]
  have h35 : ('#' = c) = False := by
    simp only [eq_iff_iff, iff_false]
    exact fun hcc => hnh hcc.symm
  rw [show lower (c :: rest) = lowerChar c :: lower rest from rfl, hc']
  simp only [h35, decide_False, Bool.false_and, Bool.false_or, if_false]
  rw [show startsWith "player1:".data ('p' :: lower rest) =
      ('p' = 'p' && startsWith "layer1:".data (lower rest)) from rfl]
  rw [htail]
  rfl

/-! ## C9: winner assignment after parsing -/

/-- C9: in the winner loop run after parsing and clamping, a player whose
position reached `LAST_TILE` becomes the winner with the position forced to
exactly `LAST_TILE`; when both qualify the later-processed Player2 wins.
Concretely, parsing a file with both players past the end yields winner
Player2 and both positions at `LAST_TILE`. -/
theorem claim_C9_winner_tiebreak :
    (∀ st : GameState,
      (winnerStage st).winner =
        (if LAST_TILE ≤ st.pos2 then some Player.P2
         else if LAST_TILE ≤ st.pos1 then some Player.P1 else st.winner) ∧
      (winnerStage st).pos1 = (if LAST_TILE ≤ st.pos1 then LAST_TILE else st.pos1) ∧
      (winnerStage st).pos2 = (if LAST_TILE ≤ st.pos2 then LAST_TILE else st.pos2)) ∧
    parse_game_file (some ("Player1: 150\nPlayer2: 101".data)) =
      { turn := .P1, pos1 := LAST_TILE, pos2 := LAST_TILE, events := [],
        winner := some Player.P2 } := by
  refine ⟨fun st => ?_, by decide⟩
  unfold winnerStage
  dsimp only
  by_cases h1 : LAST_TILE ≤ st.pos1 <;> by_cases h2 : LAST_TILE ≤ st.pos2 <;>
    simp [h1, h2]

/-! ## C6: event application -/

/-- The canonical applied-list entry the apply loop records for a stored
event name, if the name is recognized. -/
lemma applyStep_eq (acc : Int × List Str) (ev : Str) :
    applyStep acc ev =
      match recogName ev with
      | some canon => (acc.1 + eventDelta ev, acc.2 ++ [canon])
      | none => acc := by
  unfold applyStep recogName eventDelta
  by_cases h1 : lower ev = "treasure".data <;> by_cases h2 : lower ev = "portal".data <;>
    simp [h1, h2]

/-- The event fold computes the delta sum and the filtered applied list. -/
lemma foldl_applyStep (evs : List Str) (pos : Int) (acc : List Str) :
    evs.foldl applyStep (pos, acc) =
      (pos + (evs.map eventDelta).sum, acc ++ evs.filterMap recogName) := by
  induction evs generalizing pos acc with
  | nil => simp
  | cons ev rest ih =>
    rw [List.foldl_cons, applyStep_eq]
    cases hr : recogName ev with
    | none =>
      have hδ : eventDelta ev = 0 := by
        unfold recogName at hr
        unfold eventDelta
        by_cases h1 : lower ev = "treasure".data <;>
          by_cases h2 : lower ev = "portal".data <;> simp [h1, h2] at hr ⊢
      simp [ih, hr, hδ]
    | some canon =>
      simp [ih, hr, List.sum_cons, add_assoc]

/-- C6: `apply_events` on a non-winning tile applies the tile's stored
events in order — `Treasure` adds 10, `Portal` subtracts 3 on a running
position, unrecognized names do nothing and are not recorded — and clamps
to `[0, LAST_TILE]` only once, after all events; a `[Treasure, Portal]`
tile therefore yields `final = clamp(movedTo + 10 - 3)`. -/
theorem claim_C6_event_application (st : GameState) (p : Player)
    (hpos : posOf st p < LAST_TILE) :
    ((apply_events st p).2.1 =
        (dictGet st.events (posOf st p)).filterMap recogName) ∧
    ((apply_events st p).2.2 =
        max 0 (min LAST_TILE
          (posOf st p + ((dictGet st.events (posOf st p)).map eventDelta).sum))) ∧
    (dictGet st.events (posOf st p) = ["Treasure".data, "Portal".data] →
      (apply_events st p).2.2 = max 0 (min LAST_TILE (posOf st p + 10 - 3))) := by
  have hfold := foldl_applyStep (dictGet st.events (posOf st p)) (posOf st p) []
  have h21 : (apply_events st p).2.1 =
      (dictGet st.events (posOf st p)).filterMap recogName := by
    unfold apply_events
    dsimp only
    rw [hfold]
    simp
  have h22 : (apply_events st p).2.2 =
      max 0 (min LAST_TILE
        (posOf st p + ((dictGet st.events (posOf st p)).map eventDelta).sum)) := by
    unfold apply_events
    dsimp only
    rw [hfold]
  refine ⟨h21, h22, fun hevs => ?_⟩
  have hsum : ((["Treasure".data, "Portal".data]).map eventDelta).sum = (7 : Int) := by decide
  rw [h22, hevs, hsum, show posOf st p + 10 - 3 = posOf st p + 7 by ring]

theorem claim_C6_event_application_witness :
    ((apply_events { turn := .P1, pos1 := 93, pos2 := 0,
                     events := [(93, ["Portal".data, "Gem".data, "Treasure".data])],
                     winner := none } .P1).2.1 =
        (dictGet [(93, ["Portal".data, "Gem".data, "Treasure".data])] 93).filterMap recogName) ∧
    ((apply_events { turn := .P1, pos1 := 93, pos2 := 0,
                     events := [(93, ["Portal".data, "Gem".data, "Treasure".data])],
                     winner := none } .P1).2.2 =
        max 0 (min LAST_TILE
          (93 + ((dictGet [(93, ["Portal".data, "Gem".data, "Treasure".data])] 93).map
            eventDelta).sum))) ∧
    (dictGet [(93, ["Portal".data, "Gem".data, "Treasure".data])] 93 =
        ["Treasure".data, "Portal".data] →
      (apply_events { turn := .P1, pos1 := 93, pos2 := 0,
                      events := [(93, ["Portal".data, "Gem".data, "Treasure".data])],
                      winner := none } .P1).2.2 =
        max 0 (min LAST_TILE (93 + 10 - 3))) :=
  claim_C6_event_application _ .P1 (by decide)

/-! ## C7: what happens after the `Events:` marker -/

/-- C7 counterexample: a `Player1: 5` line appearing after `Events:` DOES
change the parsed position — the keyword branches are checked before the
events-table branch, so event-table mode is not exclusive. -/
theorem claim_C7_counterexample :
    (parse_game_file (some ("Events:\nPlayer1: 5".data))).pos1 = 5 ∧ (5 : Int) ≠ 0 := by
  refine ⟨by decide, by decide⟩

/-- C7 (amended): after `Events:`, a non-blank non-comment line is parsed
as a `<tile>: <events>` line — skipped, with no other effect, when it has
no colon or its left side does not integer-parse — only if it does not
start (case-insensitively) with one of the keywords `turn:`, `player1:`,
`player2:`, `events:`; keyword lines are still handled by their header
branches, e.g. a `player1:`-prefixed line always rewrites Player1's
position. -/
theorem claim_C7_events_mode :
    (∀ (s : ParseSt) (ln : Str), s.modeEvents = true →
      ln.isEmpty = false →
      startsWith "#".data ln = false →
      startsWith "turn:".data (lower ln) = false →
      startsWith "player1:".data (lower ln) = false →
      startsWith "player2:".data (lower ln) = false →
      startsWith "events:".data (lower ln) = false →
      (containsChar ln ':' = false ∨ pyIntParse (strip (splitFirstColon ln).1) = none) →
      processLine s ln = s) ∧
    (∀ (s : ParseSt) (ln : Str), startsWith "player1:".data (lower ln) = true →
      (processLine s ln).st.pos1 =
        (match pyIntParse (afterColon ln) with
         | some n => max 0 n
         | none => 0)) := by
  constructor
  · intro s ln hm h0 h1 h2 h3 h4 h5 h6
    unfold processLine
    rw [h0, h1, h2, h3, h4, h5, hm]
    simp only [Bool.or_self, Bool.false_eq_true, if_false, if_true]
    rcases h6 with hnc | hparse
    · rw [hnc]
      rfl
    · by_cases hcc : containsChar ln ':'
      · rw [hcc]
        rw [show (!true) = false from rfl]
        simp only [Bool.false_eq_true, if_false]
        rw [hparse]
      · rw [Bool.not_eq_true] at hcc
        rw [hcc]
        rfl
  · intro s ln h
    rw [processLine_player1_of s ln h]

theorem claim_C7_events_mode_witness :
    processLine ⟨defaultState, true⟩ ("Player: x".data) = ⟨defaultState, true⟩ ∧
    (processLine ⟨defaultState, true⟩ ("Player1: 5".data)).st.pos1 =
      (match pyIntParse (afterColon ("Player1: 5".data)) with
       | some n => max 0 n
       | none => 0) :=
  ⟨claim_C7_events_mode.1 ⟨defaultState, true⟩ _ rfl (by decide) (by decide) (by decide)
      (by decide) (by decide) (by decide) (Or.inr (by decide)),
   claim_C7_events_mode.2 ⟨defaultState, true⟩ _ (by decide)⟩

/-! ## C8: parser totality and per-field defaulting -/

/-- C8: parsing never fails — a missing file yields the default state, a
`Turn:` line whose value is not exactly `Player1`/`Player2` defaults the
turn to Player1, a position line whose value does not parse as an integer
defaults that position to 0 (e.g. `Player1: abc` leaves everything at the
defaults). The embedding of `parse_game_file` is a total function, so no
input raises. -/
theorem claim_C8_parser_tolerance :
    (parse_game_file none = defaultState) ∧
    (∀ (s : ParseSt) (ln : Str), startsWith "turn:".data (lower ln) = true →
      strip (afterColon ln) ≠ "Player1".data →
      strip (afterColon ln) ≠ "Player2".data →
      (processLine s ln).st.turn = Player.P1) ∧
    (∀ (s : ParseSt) (ln : Str), startsWith "player1:".data (lower ln) = true →
      pyIntParse (afterColon ln) = none →
      (processLine s ln).st.pos1 = 0) ∧
    (parse_game_file (some ("Player1: abc".data)) = defaultState) := by
  refine ⟨rfl, ?_, ?_, by decide⟩
  · intro s ln h h1 h2
    rw [processLine_turn_of s ln h]
    simp [h1, h2]
  · intro s ln h hp
    rw [processLine_player1_of s ln h]
    simp [hp]

theorem claim_C8_parser_tolerance_witness :
    (processLine ⟨defaultState, false⟩ ("Turn: banana".data)).st.turn = Player.P1 ∧
    (processLine ⟨defaultState, false⟩ ("Player1: abc".data)).st.pos1 = 0 :=
  ⟨claim_C8_parser_tolerance.2.1 ⟨defaultState, false⟩ _ (by decide) (by decide) (by decide),
   claim_C8_parser_tolerance.2.2.1 ⟨defaultState, false⟩ _ (by decide) (by decide)⟩

/-! ## C10: event-table keys are not range checked -/

/-- C10 counterexample: the parser stores tile key `0`, which is outside
`1..LAST_TILE`, so the claimed key-range invariant fails. -/
theorem claim_C10_counterexample :
    (parse_game_file (some ("Events:\n0: Treasure".data))).events =
      [(0, ["Treasure".data])] ∧ (0 : Int) < 1 := by
  refine ⟨by decide, by decide⟩

/-- C10 (amended): event-table keys are stored verbatim with no range
check — any integer that parses on the left of an event line becomes a
key, including 0, negative values, and values beyond `LAST_TILE`. -/
theorem claim_C10_keys_unrestricted :
    ((parse_game_file
        (some ("Events:\n0: Treasure\n-5: portal\n200: Treasure".data))).events.map
      fun pr => pr.1) = [0, -5, 200] ∧
    (0 : Int) < 1 ∧ (-5 : Int) < 1 ∧ LAST_TILE < 200 := by
  refine ⟨by decide, by decide, by decide, by decide⟩

/-! ## C1: the range invariant -/

lemma inRange_iff (st : GameState) :
    InRange st ↔ ∀ q : Player, 0 ≤ posOf st q ∧ posOf st q ≤ LAST_TILE := by
  unfold InRange
  constructor
  · intro h q
    cases q
    · exact ⟨h.1, h.2.1⟩
    · exact ⟨h.2.2.1, h.2.2.2⟩
  · intro h
    exact ⟨(h .P1).1, (h .P1).2, (h .P2).1, (h .P2).2⟩

lemma setPos_pos_other (st : GameState) (p q : Player) (v : Int) (h : q ≠ p) :
    posOf (setPos st p v) q = posOf st q := by
  cases p <;> cases q <;> first | exact absurd rfl h | rfl

lemma parse_inRange (f : Option Str) : InRange (parse_game_file f) := by
  cases f with
  | none => exact ⟨by decide, by decide, by decide, by decide⟩
  | some content =>
    show InRange (winnerStage (clampStage (rawParse _)))
    generalize rawParse ((splitOn '\n' content).map strip) = st
    unfold InRange winnerStage clampStage
    rw [show LAST_TILE = (100 : Int) from rfl]
    dsimp only
    split_ifs <;> dsimp only <;> omega

lemma apply_events_inRange (st : GameState) (p : Player)
    (hother : ∀ q : Player, q ≠ p → 0 ≤ posOf st q ∧ posOf st q ≤ LAST_TILE) :
    InRange (apply_events st p).1 := by
  rw [inRange_iff]
  intro q
  by_cases hq : q = p
  · subst hq
    rw [apply_events_pos_self]
    rw [show LAST_TILE = (100 : Int) from rfl]
    omega
  · rw [apply_events_pos_other st p q hq]
    exact hother q hq

lemma attempt_move_inRange (st : GameState) (p : Player) (steps : Int)
    (h : InRange st) : InRange (attempt_move st p steps).1 := by
  unfold attempt_move
  split
  · exact h
  · dsimp only
    split
    · next hwin =>
      obtain ⟨h1, h2, h3, h4⟩ := h
      unfold InRange
      cases p <;>
        (dsimp only [setPos, posOf] at hwin ⊢
         rw [show LAST_TILE = (100 : Int) from rfl] at hwin h2 h4 ⊢
         omega)
    · apply apply_events_inRange
      intro q hq
      rw [setPos_pos_other st p q _ hq]
      exact (inRange_iff st).mp h q

/-- C1: every reachable state — the initial/reloaded parse result and
anything produced from a reachable state by `attempt_move`,
`apply_events`, or `switch_turn` — keeps both positions within
`[0, LAST_TILE]`. -/
theorem claim_C1_range_invariant (st : GameState) (h : Reachable st) : InRange st := by
  induction h with
  | load f => exact parse_inRange f
  | move st p steps _ ih => exact attempt_move_inRange st p steps ih
  | events st p _ ih =>
    exact apply_events_inRange st p fun q _ => (inRange_iff st).mp ih q
  | turn st _ ih => exact ih

theorem claim_C1_range_invariant_witness : InRange (parse_game_file none) :=
  claim_C1_range_invariant (parse_game_file none) (Reachable.load none)

/-! ## C5: the serialize/parse round trip -/

/-- C5 counterexample: a state whose positions are in range and whose
winner is consistent, but which stores the event name `"xx"`: parsing the
serialized text re-capitalizes the name to `"Xx"`, so the round trip does
not return an equal state. -/
theorem claim_C5_counterexample :
    pyStateEq
      (parse_game_file (some (write_game_file
        { turn := .P1, pos1 := 3, pos2 := 0, events := [(5, ["xx".data])],
          winner := none })))
      { turn := .P1, pos1 := 3, pos2 := 0, events := [(5, ["xx".data])],
        winner := none } = false ∧
    (0 : Int) ≤ 3 ∧ (3 : Int) ≤ LAST_TILE ∧ (0 : Int) ≤ 0 ∧ (0 : Int) ≤ LAST_TILE ∧
    recomputedWinner 3 0 = none := by
  refine ⟨by decide, by decide, by decide, by decide, by decide, by decide⟩

/-! ### Stripping lemmas -/

lemma lstrip_cons_space (s : Str) : lstrip (' ' :: s) = lstrip s := rfl

lemma lstrip_eq_self (s : Str) (h : ∀ c, s.head? = some c → isSpace c = false) :
    lstrip s = s := by
  cases s with
  | nil => rfl
  | cons c rest => simp [lstrip, List.dropWhile, h c rfl]

lemma rstrip_eq_self (s : Str) (h : ∀ c, s.getLast? = some c → isSpace c = false) :
    rstrip s = s := by
  unfold rstrip
  rw [show s.reverse.dropWhile (fun c => isSpace c) = lstrip s.reverse from rfl]
  rw [lstrip_eq_self s.reverse (by rw [List.head?_reverse]; exact h), List.reverse_reverse]

lemma strip_eq_self (s : Str)
    (hh : ∀ c, s.head? = some c → isSpace c = false)
    (hl : ∀ c, s.getLast? = some c → isSpace c = false) :
    strip s = s := by
  unfold strip
  rw [rstrip_eq_self s hl, lstrip_eq_self s hh]

lemma rstrip_cons_space (s : Str) :
    rstrip (' ' :: s) = if (rstrip s).isEmpty then [] else ' ' :: rstrip s := by
  unfold rstrip
  rw [show (' ' :: s).reverse = s.reverse ++ [' '] from by simp]
  rw [List.dropWhile_append]
  by_cases h : (s.reverse.dropWhile fun c => isSpace c).isEmpty
  · have hnil : (s.reverse.dropWhile fun c => isSpace c) = [] := List.isEmpty_iff.mp h
    rw [if_pos h, if_pos (by rw [hnil]; rfl)]
    rfl
  · rw [if_neg h, if_neg (fun hc => h (List.isEmpty_iff.mpr
      (List.reverse_eq_nil_iff.mp (List.isEmpty_iff.mp hc))))]
    rw [List.reverse_append]
    rfl

lemma strip_cons_space (s : Str) : strip (' ' :: s) = strip s := by
  unfold strip
  rw [rstrip_cons_space]
  by_cases h : (rstrip s).isEmpty
  · rw [if_pos h, List.isEmpty_iff.mp h]
  · rw [if_neg h, lstrip_cons_space]

lemma lstrip_length_le (s : Str) : (lstrip s).length ≤ s.length :=
  (List.dropWhile_sublist _).length_le

lemma rstrip_length_le (s : Str) : (rstrip s).length ≤ s.length := by
  unfold rstrip
  rw [List.length_reverse]
  calc (s.reverse.dropWhile fun c => isSpace c).length ≤ s.reverse.length :=
        (List.dropWhile_sublist _).length_le
    _ = s.length := List.length_reverse s

lemma lstrip_eq_self_of_length (s : Str) (h : (lstrip s).length = s.length) :
    lstrip s = s :=
  List.Sublist.eq_of_length (List.dropWhile_sublist _) h

/-- A strip-fixed string is fixed by both one-sided strips. -/
lemma of_strip_eq_self (s : Str) (h : strip s = s) :
    lstrip s = s ∧ rstrip s = s := by
  have h1 : (strip s).length ≤ (rstrip s).length := lstrip_length_le (rstrip s)
  have h2 : (rstrip s).length ≤ s.length := rstrip_length_le s
  have hlen : (rstrip s).length = s.length := by rw [h] at h1; omega
  have hr : rstrip s = s := by
    have hrl : (s.reverse.dropWhile fun c => isSpace c).length = s.reverse.length := by
      have ha : (rstrip s).length = (s.reverse.dropWhile fun c => isSpace c).length := by
        unfold rstrip
        rw [List.length_reverse]
      rw [List.length_reverse, ← ha, hlen]
    have heq := List.Sublist.eq_of_length (List.dropWhile_sublist _) hrl
    unfold rstrip
    rw [heq, List.reverse_reverse]
  refine ⟨?_, hr⟩
  have hl : lstrip s = strip s := by unfold strip; rw [hr]
  rw [hl, h]

/-- The first character of a nonempty strip-fixed string is not whitespace. -/
lemma head_not_space_of_strip (s : Str) (h : strip s = s) (c : Char) (hc : s.head? = some c) :
    isSpace c = false := by
  obtain ⟨hls, _⟩ := of_strip_eq_self s h
  cases s with
  | nil => cases hc
  | cons d rest =>
    injection hc with hc
    subst hc
    by_contra hsp
    rw [Bool.not_eq_false] at hsp
    unfold lstrip at hls
    rw [List.dropWhile_cons_of_pos hsp] at hls
    have hlen := congrArg List.length hls
    rw [List.length_cons] at hlen
    have hle : (rest.dropWhile isSpace).length ≤ rest.length :=
      (List.dropWhile_sublist _).length_le
    have hle' : (rest.dropWhile fun c => isSpace c).length ≤ rest.length := hle
    omega

/-- The last character of a nonempty strip-fixed string is not whitespace. -/
lemma last_not_space_of_strip (s : Str) (h : strip s = s) (c : Char)
    (hc : s.getLast? = some c) : isSpace c = false := by
  obtain ⟨_, hrs⟩ := of_strip_eq_self s h
  have hrev : strip s.reverse = s.reverse := by
    have h1 : lstrip s.reverse = s.reverse := by
      unfold rstrip at hrs
      have := congrArg List.reverse hrs
      rw [List.reverse_reverse] at this
      exact this
    have h2 : rstrip s.reverse = s.reverse := by
      unfold rstrip
      rw [List.reverse_reverse]
      obtain ⟨hl, _⟩ := of_strip_eq_self s h
      rw [show s.dropWhile (fun c => isSpace c) = lstrip s from rfl, hl]
    unfold strip
    rw [h2, h1]
  exact head_not_space_of_strip s.reverse hrev c (by rw [List.head?_reverse]; exact hc)

/-! ### Integer printing and reparsing -/

lemma digitToChar_spec : ∀ d : Nat, d < 10 →
    isDigitChar (digitToChar d) = true ∧ digitVal (digitToChar d) = d := by decide

lemma natToStrAux_allDigits : ∀ fuel n : Nat, ∀ c ∈ natToStrAux fuel n, isDigitChar c = true := by
  intro fuel
  induction fuel with
  | zero => intro n c hc; cases hc
  | succ fuel ih =>
    intro n c hc
    cases n with
    | zero => cases hc
    | succ m =>
      rw [show natToStrAux (fuel + 1) (m + 1) =
          natToStrAux fuel ((m + 1) / 10) ++ [digitToChar ((m + 1) % 10)] from rfl] at hc
      rcases List.mem_append.mp hc with hc | hc
      · exact ih _ c hc
      · rcases List.mem_singleton.mp hc with rfl
        exact (digitToChar_spec _ (Nat.mod_lt _ (by norm_num))).1

lemma parseDigitsAux_cons_digit (acc : Nat) (c : Char) (X : Str)
    (hc : isDigitChar c = true) :
    parseDigitsAux acc (c :: X) = parseDigitsAux (acc * 10 + digitVal c) X := by
  rw [parseDigitsAux.eq_def]
  dsimp only
  rw [if_pos hc]

lemma parseDigitsAux_append (s t : Str) (acc : Nat)
    (h : ∀ c ∈ s, isDigitChar c = true) :
    parseDigitsAux acc (s ++ t) =
      parseDigitsAux (s.foldl (fun a c => a * 10 + digitVal c) acc) t := by
  induction s generalizing acc with
  | nil => rfl
  | cons c rest ih =>
    rw [List.cons_append,
      parseDigitsAux_cons_digit acc c _ (h c (List.mem_cons_self c rest)),
      ih _ fun d hd => h d (List.mem_cons_of_mem c hd), List.foldl_cons]

lemma foldl_digits_natToStrAux : ∀ fuel n acc : Nat, n ≤ fuel →
    (natToStrAux fuel n).foldl (fun a c => a * 10 + digitVal c) acc =
      acc * 10 ^ (natToStrAux fuel n).length + n := by
  intro fuel
  induction fuel with
  | zero =>
    intro n acc h
    interval_cases n
    simp [natToStrAux]
  | succ fuel ih =>
    intro n acc h
    cases n with
    | zero => simp [natToStrAux]
    | succ m =>
      rw [show natToStrAux (fuel + 1) (m + 1) =
          natToStrAux fuel ((m + 1) / 10) ++ [digitToChar ((m + 1) % 10)] from rfl]
      rw [List.foldl_append]
      have hle : (m + 1) / 10 ≤ fuel := by
        have := Nat.div_lt_self (Nat.succ_pos m) (by norm_num : 1 < 10)
        omega
      rw [ih _ acc hle]
      rw [List.length_append, List.length_singleton]
      rw [List.foldl_cons, List.foldl_nil]
      rw [(digitToChar_spec ((m + 1) % 10) (Nat.mod_lt _ (by norm_num))).2]
      have hdm : 10 * ((m + 1) / 10) + (m + 1) % 10 = m + 1 := Nat.div_add_mod (m + 1) 10
      rw [pow_succ, ← mul_assoc]
      omega

lemma parseDigits_allDigits (s : Str) (hne : s ≠ [])
    (h : ∀ c ∈ s, isDigitChar c = true) :
    parseDigits s = some (s.foldl (fun a c => a * 10 + digitVal c) 0) := by
  cases s with
  | nil => exact absurd rfl hne
  | cons c rest =>
    rw [show parseDigits (c :: rest) =
        (if isDigitChar c then parseDigitsAux (digitVal c) rest else none) from rfl]
    rw [if_pos (h c (List.mem_cons_self c rest))]
    have := parseDigitsAux_append rest [] (digitVal c)
      fun d hd => h d (List.mem_cons_of_mem c hd)
    rw [List.append_nil] at this
    rw [this]
    rw [List.foldl_cons]
    simp only [Nat.zero_mul, Nat.zero_add]
    rfl

lemma natToStr_ne_nil (n : Nat) : natToStr n ≠ [] := by
  unfold natToStr
  split
  · simp
  · next hn =>
    cases n with
    | zero => exact absurd rfl hn
    | succ m =>
      cases m with
      | zero => simp [natToStrAux]
      | succ k =>
        rw [show natToStrAux (k + 1 + 1) (k + 1 + 1) =
            natToStrAux (k + 1) ((k + 1 + 1) / 10) ++ [digitToChar ((k + 1 + 1) % 10)] from rfl]
        simp

lemma natToStr_allDigits (n : Nat) : ∀ c ∈ natToStr n, isDigitChar c = true := by
  unfold natToStr
  split
  · intro c hc
    rcases List.mem_singleton.mp hc with rfl
    decide
  · exact natToStrAux_allDigits n n

lemma parseDigits_natToStr (n : Nat) : parseDigits (natToStr n) = some n := by
  by_cases hn : n = 0
  · subst hn; decide
  · rw [parseDigits_allDigits _ (natToStr_ne_nil n) (natToStr_allDigits n)]
    unfold natToStr
    rw [if_neg hn]
    rw [foldl_digits_natToStrAux n n 0 le_rfl]
    simp

lemma strip_natToStr (n : Nat) : strip (natToStr n) = natToStr n := by
  apply strip_eq_self
  · intro c hc
    exact isSpace_eq_false_of_digit (natToStr_allDigits n c (List.mem_of_mem_head? hc))
  · intro c hc
    exact isSpace_eq_false_of_digit
      (natToStr_allDigits n c (List.mem_of_mem_getLast? hc))

lemma digit_ne_sign {c : Char} (h : isDigitChar c = true) : c ≠ '-' ∧ c ≠ '+' := by
  constructor <;> rintro rfl <;> simp [isDigitChar] at h

/-- Printing an integer and parsing it back is the identity. -/
lemma pyIntParse_intToStr (i : Int) : pyIntParse (intToStr i) = some i := by
  by_cases hneg : i < 0
  · have hstrip : strip ('-' :: natToStr i.natAbs) = '-' :: natToStr i.natAbs := by
      apply strip_eq_self
      · intro c hc
        injection hc with hc
        subst hc
        decide
      · intro c hc
        have hmem : c ∈ natToStr i.natAbs := by
          rcases hrep : natToStr i.natAbs with _ | ⟨a, t⟩
          · exact absurd hrep (natToStr_ne_nil _)
          · rw [hrep, List.getLast?_cons_cons] at hc
            exact List.mem_of_mem_getLast? (Option.mem_def.mpr hc)
        exact isSpace_eq_false_of_digit (natToStr_allDigits _ c hmem)
    have hmain : pyIntParse (intToStr i) =
        (parseDigits (natToStr i.natAbs)).map fun n => -(Int.ofNat n) := by
      unfold intToStr
      rw [if_pos hneg]
      unfold pyIntParse
      rw [hstrip]
      rfl
    rw [hmain, parseDigits_natToStr]
    show some (-(i.natAbs : Int)) = some i
    congr 1
    omega
  · rcases hrep : natToStr i.toNat with _ | ⟨c, rest⟩
    · exact absurd hrep (natToStr_ne_nil _)
    · have hdig : isDigitChar c = true :=
        natToStr_allDigits i.toNat c (hrep ▸ List.mem_cons_self _ _)
      obtain ⟨hm, hp⟩ := digit_ne_sign hdig
      have hmain : pyIntParse (intToStr i) =
          (parseDigits (c :: rest)).map fun n => Int.ofNat n := by
        unfold intToStr
        rw [if_neg hneg]
        unfold pyIntParse
        rw [strip_natToStr, hrep]
        dsimp only
        rw [if_neg hm, if_neg hp]
      rw [hmain, ← hrep, parseDigits_natToStr]
      show some ((i.toNat : Int)) = some i
      congr 1
      omega

/-- The printed form of an integer starts with a digit or a minus sign. -/
lemma intToStr_head (i : Int) :
    ∃ c rest, intToStr i = c :: rest ∧ (isDigitChar c = true ∨ c = '-') := by
  unfold intToStr
  split
  · exact ⟨'-', natToStr i.natAbs, rfl, Or.inr rfl⟩
  · rcases hrep : natToStr i.toNat with _ | ⟨c, rest⟩
    · exact absurd hrep (natToStr_ne_nil _)
    · exact ⟨c, rest, rfl,
        Or.inl (natToStr_allDigits i.toNat c (hrep ▸ List.mem_cons_self _ _))⟩

lemma intToStr_allDigitsOrSign (i : Int) :
    ∀ c ∈ intToStr i, isDigitChar c = true ∨ c = '-' := by
  unfold intToStr
  split
  · intro c hc
    rcases List.mem_cons.mp hc with rfl | hc
    · exact Or.inr rfl
    · exact Or.inl (natToStr_allDigits _ c hc)
  · intro c hc
    exact Or.inl (natToStr_allDigits _ c hc)

lemma strip_intToStr (i : Int) : strip (intToStr i) = intToStr i := by
  have hns : ∀ c ∈ intToStr i, isSpace c = false := by
    intro c hc
    rcases intToStr_allDigitsOrSign i c hc with h | rfl
    · exact isSpace_eq_false_of_digit h
    · decide
  exact strip_eq_self _ (fun c hc => hns c (List.mem_of_mem_head? hc))
    (fun c hc => hns c (List.mem_of_mem_getLast? hc))

/-! ### Splitting and joining -/

lemma joinSep_cons₂ (sep : Str) (x y : Str) (rest : List Str) :
    joinSep sep (x :: y :: rest) = x ++ sep ++ joinSep sep (y :: rest) := rfl

lemma containsChar_append (a b : Str) (c : Char) :
    containsChar (a ++ b) c = (containsChar a c || containsChar b c) := by
  simp [containsChar, List.any_append]

lemma containsChar_cons (d : Char) (s : Str) (c : Char) :
    containsChar (d :: s) c = (decide (d = c) || containsChar s c) := rfl

lemma containsChar_joinSep (sep : Str) (xs : List Str) (c : Char)
    (hsep : containsChar sep c = false) (h : ∀ x ∈ xs, containsChar x c = false) :
    containsChar (joinSep sep xs) c = false := by
  induction xs with
  | nil => rfl
  | cons x rest ih =>
    cases rest with
    | nil => exact h x (List.mem_cons_self x [])
    | cons y t =>
      rw [joinSep_cons₂, containsChar_append, containsChar_append]
      rw [h x (List.mem_cons_self x _), hsep,
        ih fun z hz => h z (List.mem_cons_of_mem x hz)]
      rfl

lemma splitOn_ne_nil (c : Char) (s : Str) : splitOn c s ≠ [] := by
  cases s with
  | nil => simp [splitOn]
  | cons d rest =>
    unfold splitOn
    split
    · simp
    · rcases hs : splitOn c rest with _ | ⟨t, ts⟩
      · simp
      · simp

lemma splitOn_eq_single (c : Char) (s : Str) (h : containsChar s c = false) :
    splitOn c s = [s] := by
  induction s with
  | nil => rfl
  | cons d rest ih =>
    rw [containsChar_cons, Bool.or_eq_false_iff] at h
    unfold splitOn
    rw [if_neg (fun hc => by simp [hc] at h)]
    rw [ih h.2]

lemma splitOn_cons (c d : Char) (rest : Str) :
    splitOn c (d :: rest) =
      (if d = c then [] :: splitOn c rest
       else
        match splitOn c rest with
        | [] => [[d]]
        | t :: ts => (d :: t) :: ts) := rfl

lemma splitOn_append_sep (c : Char) (a b : Str) (h : containsChar a c = false) :
    splitOn c (a ++ c :: b) = a :: splitOn c b := by
  induction a with
  | nil =>
    rw [List.nil_append, splitOn_cons, if_pos rfl]
  | cons d rest ih =>
    rw [containsChar_cons, Bool.or_eq_false_iff] at h
    rw [List.cons_append, splitOn_cons]
    rw [if_neg (fun hc => by simp [hc] at h)]
    rw [ih h.2]

lemma splitOn_joinSep (c : Char) (xs : List Str) (hne : xs ≠ [])
    (h : ∀ x ∈ xs, containsChar x c = false) :
    splitOn c (joinSep [c] xs) = xs := by
  induction xs with
  | nil => exact absurd rfl hne
  | cons x rest ih =>
    cases rest with
    | nil => exact splitOn_eq_single c x (h x (List.mem_cons_self x []))
    | cons y t =>
      rw [joinSep_cons₂]
      rw [show x ++ [c] ++ joinSep [c] (y :: t) = x ++ c :: joinSep [c] (y :: t) from by simp]
      rw [splitOn_append_sep c _ _ (h x (List.mem_cons_self x _))]
      rw [ih (by simp) fun z hz => h z (List.mem_cons_of_mem x hz)]

/-- Splitting the `", "`-joined names on commas, with the extra leading
space inherited from the `": "` after the tile index. -/
lemma splitOn_comma_join (ns : List Str) (hne : ns ≠ [])
    (h : ∀ n ∈ ns, containsChar n ',' = false) :
    splitOn ',' (' ' :: joinSep ", ".data ns) = ns.map fun n => ' ' :: n := by
  induction ns with
  | nil => exact absurd rfl hne
  | cons x rest ih =>
    cases rest with
    | nil =>
      rw [List.map_singleton]
      exact splitOn_eq_single ',' (' ' :: x)
        (by rw [containsChar_cons, h x (List.mem_cons_self x [])]; rfl)
    | cons y t =>
      rw [show joinSep ", ".data (x :: y :: t) =
          x ++ (',' :: ' ' :: joinSep ", ".data (y :: t)) from by
        rw [joinSep_cons₂]; simp]
      rw [show ' ' :: (x ++ ',' :: (' ' :: joinSep ", ".data (y :: t))) =
          (' ' :: x) ++ ',' :: (' ' :: joinSep ", ".data (y :: t)) from rfl]
      rw [splitOn_append_sep ',' _ _
        (by rw [containsChar_cons, h x (List.mem_cons_self x _)]; rfl)]
      rw [ih (by simp) fun z hz => h z (List.mem_cons_of_mem x hz)]
      rfl

lemma splitFirstColon_append (a b : Str) (h : containsChar a ':' = false) :
    splitFirstColon (a ++ ':' :: b) = (a, b) := by
  induction a with
  | nil =>
    rw [List.nil_append]
    unfold splitFirstColon
    rw [if_pos rfl]
  | cons d rest ih =>
    rw [containsChar_cons, Bool.or_eq_false_iff] at h
    rw [List.cons_append]
    unfold splitFirstColon
    rw [if_neg (fun hc => by simp [hc] at h)]
    rw [ih h.2]

/-! ### Dictionary lemmas -/

lemma dictGet_eq_getOpt (d : List (Int × List Str)) (k : Int) :
    dictGet d k = (dictGetOpt d k).getD [] := by
  induction d with
  | nil => rfl
  | cons pr rest ih =>
    obtain ⟨k', v⟩ := pr
    unfold dictGet dictGetOpt
    split <;> simp [ih]

lemma dictGetOpt_isSome_iff_mem (d : List (Int × List Str)) (k : Int) :
    (dictGetOpt d k).isSome = true ↔ k ∈ d.map fun pr => pr.1 := by
  induction d with
  | nil => simp [dictGetOpt]
  | cons pr rest ih =>
    obtain ⟨k', v⟩ := pr
    unfold dictGetOpt
    by_cases hk : k' = k
    · subst hk
      simp
    · rw [if_neg hk]
      simp only [List.map_cons, List.mem_cons]
      rw [ih]
      constructor
      · exact fun h => Or.inr h
      · rintro (rfl | h)
        · exact absurd rfl hk
        · exact h

lemma dictGetOpt_none_of_not_mem (d : List (Int × List Str)) (k : Int)
    (h : k ∉ d.map fun pr => pr.1) : dictGetOpt d k = none := by
  rcases ho : dictGetOpt d k with _ | v
  · rfl
  · exact absurd ((dictGetOpt_isSome_iff_mem d k).mp (by rw [ho]; rfl)) h

lemma dictExtend_of_not_mem (d : List (Int × List Str)) (k : Int) (vs : List Str)
    (h : k ∉ d.map fun pr => pr.1) : dictExtend d k vs = d ++ [(k, vs)] := by
  induction d with
  | nil => rfl
  | cons pr rest ih =>
    obtain ⟨k', v⟩ := pr
    simp only [List.map_cons, List.mem_cons] at h
    push_neg at h
    unfold dictExtend
    rw [if_neg (show ¬(k' = k) from fun hc => h.1 hc.symm), ih h.2]
    rfl

lemma dictGetOpt_append_right (d1 d2 : List (Int × List Str)) (k : Int)
    (h : dictGetOpt d1 k = none) : dictGetOpt (d1 ++ d2) k = dictGetOpt d2 k := by
  induction d1 with
  | nil => rfl
  | cons pr rest ih =>
    obtain ⟨k', v⟩ := pr
    rw [show dictGetOpt ((k', v) :: rest) k =
        (if k' = k then some v else dictGetOpt rest k) from rfl] at h
    rw [List.cons_append]
    rw [show dictGetOpt ((k', v) :: (rest ++ d2)) k =
        (if k' = k then some v else dictGetOpt (rest ++ d2) k) from rfl]
    by_cases hk : k' = k
    · rw [if_pos hk] at h
      cases h
    · rw [if_neg hk] at h
      rw [if_neg hk]
      exact ih h

/-- The fold that parses the serialized event lines produces the verbatim
association list over the (distinct, fresh) serialized keys. -/
lemma foldl_dictExtend_fresh (f : Int → List Str) (ts : List Int)
    (d : List (Int × List Str))
    (hfresh : ∀ t ∈ ts, t ∉ d.map fun pr => pr.1) (hnodup : ts.Nodup) :
    ts.foldl (fun acc t => dictExtend acc t (f t)) d =
      d ++ ts.map fun t => (t, f t) := by
  induction ts generalizing d with
  | nil => simp
  | cons t rest ih =>
    rw [List.foldl_cons]
    rw [dictExtend_of_not_mem d t (f t) (hfresh t (List.mem_cons_self t rest))]
    rw [List.nodup_cons] at hnodup
    rw [ih (d ++ [(t, f t)])
      (fun u hu => by
        simp only [List.map_append, List.mem_append, List.map_cons, List.map_nil,
          List.mem_singleton]
        push_neg
        refine ⟨fun hc => hfresh u (List.mem_cons_of_mem t hu) hc, ?_⟩
        rintro rfl
        exact hnodup.1 hu)
      hnodup.2]
    simp

lemma dictGetOpt_tabulate (f : Int → List Str) (ts : List Int) (k : Int) :
    dictGetOpt (ts.map fun t => (t, f t)) k =
      if k ∈ ts then some (f k) else none := by
  induction ts with
  | nil => simp [dictGetOpt]
  | cons t rest ih =>
    rw [List.map_cons]
    rw [show dictGetOpt ((t, f t) :: rest.map fun u => (u, f u)) k =
        if t = k then some (f t) else dictGetOpt (rest.map fun u => (u, f u)) k from rfl]
    by_cases hk : t = k
    · subst hk
      rw [if_pos rfl, if_pos (List.mem_cons_self t rest)]
    · rw [if_neg hk, ih]
      by_cases hmem : k ∈ rest
      · rw [if_pos hmem, if_pos (List.mem_cons_of_mem t hmem)]
      · rw [if_neg hmem, if_neg (by
          rw [List.mem_cons]
          rintro (rfl | hc)
          · exact hk rfl
          · exact hmem hc)]

/-! ### Insertion sort of tile keys -/

lemma insertSorted_perm (k : Int) (l : List Int) : (insertSorted k l).Perm (k :: l) := by
  induction l with
  | nil => exact List.Perm.refl _
  | cons x xs ih =>
    unfold insertSorted
    split
    · exact List.Perm.refl _
    · exact (ih.cons x).trans (List.Perm.swap k x xs)

lemma sortInts_perm (l : List Int) : (sortInts l).Perm l := by
  induction l with
  | nil => exact List.Perm.refl _
  | cons x xs ih =>
    show (insertSorted x (sortInts xs)).Perm (x :: xs)
    exact (insertSorted_perm x (sortInts xs)).trans (ih.cons x)

lemma mem_sortInts (l : List Int) (k : Int) : k ∈ sortInts l ↔ k ∈ l :=
  (sortInts_perm l).mem_iff

lemma nodup_sortInts (l : List Int) (h : l.Nodup) : (sortInts l).Nodup :=
  ((sortInts_perm l).nodup_iff).mpr h

/-! ### Parsing the serialized lines -/

lemma pyIntParse_space_cons (s : Str) : pyIntParse (' ' :: s) = pyIntParse s := by
  unfold pyIntParse
  rw [strip_cons_space]

lemma containsChar_eq_false (s : Str) (c : Char) (h : ∀ d ∈ s, d ≠ c) :
    containsChar s c = false := by
  unfold containsChar
  rw [List.any_eq_false]
  intro d hd
  simpa using h d hd

lemma containsChar_intToStr (i : Int) (c : Char) (hc1 : isDigitChar c = false)
    (hc2 : c ≠ '-') : containsChar (intToStr i) c = false := by
  apply containsChar_eq_false
  intro d hd
  rcases intToStr_allDigitsOrSign i d hd with h | rfl
  · rintro rfl
    rw [h] at hc1
    cases hc1
  · exact fun hc => hc2 hc.symm

lemma filterMap_id_of (l : List Str) (f : Str → Option Str)
    (h : ∀ x ∈ l, f x = some x) : l.filterMap f = l := by
  induction l with
  | nil => rfl
  | cons x rest ih =>
    rw [List.filterMap_cons, h x (List.mem_cons_self x rest),
      ih fun y hy => h y (List.mem_cons_of_mem x hy)]

lemma joinSep_ne_nil (sep : Str) (xs : List Str) (hne : xs ≠ [])
    (h : ∀ x ∈ xs, x ≠ []) : joinSep sep xs ≠ [] := by
  cases xs with
  | nil => exact absurd rfl hne
  | cons x rest =>
    cases rest with
    | nil => exact h x (List.mem_cons_self x [])
    | cons y t =>
      rw [joinSep_cons₂]
      intro hc
      rcases List.append_eq_nil.mp hc with ⟨hc1, _⟩
      rcases List.append_eq_nil.mp hc1 with ⟨hx, _⟩
      exact h x (List.mem_cons_self x _) hx

lemma getLast?_joinSep (sep : Str) (xs : List Str) (hne : xs ≠ [])
    (h : ∀ x ∈ xs, x ≠ []) :
    ∃ x ∈ xs, (joinSep sep xs).getLast? = x.getLast? := by
  induction xs with
  | nil => exact absurd rfl hne
  | cons x rest ih =>
    cases rest with
    | nil => exact ⟨x, List.mem_cons_self x [], rfl⟩
    | cons y t =>
      obtain ⟨z, hz, hlast⟩ := ih (by simp) fun u hu => h u (List.mem_cons_of_mem x hu)
      refine ⟨z, List.mem_cons_of_mem x hz, ?_⟩
      rw [joinSep_cons₂]
      rw [List.getLast?_append_of_ne_nil (x ++ sep)
        (joinSep_ne_nil sep (y :: t) (by simp) fun u hu => h u (List.mem_cons_of_mem x hu))]
      exact hlast

/-- The entry stored for a key that occurs in the dict. -/
lemma mem_pair_of_mem_keys (E : List (Int × List Str)) (k : Int)
    (h : k ∈ E.map fun pr => pr.1) : (k, dictGet E k) ∈ E := by
  induction E with
  | nil => cases h
  | cons pr rest ih =>
    obtain ⟨k', v⟩ := pr
    rw [show dictGet ((k', v) :: rest) k = (if k' = k then v else dictGet rest k) from rfl]
    by_cases hk : k' = k
    · subst hk
      rw [if_pos rfl]
      exact List.mem_cons_self _ _
    · rw [if_neg hk]
      rcases List.mem_cons.mp h with hh | hh
      · exact absurd hh.symm hk
      · exact List.mem_cons_of_mem _ (ih hh)

/-! Per-line behavior of the parsing loop on the serializer's own output. -/

lemma processLine_blank (s : ParseSt) : processLine s [] = s := rfl

lemma processLine_eventsHeader (s : ParseSt) :
    processLine s ("Events:".data) = { s with modeEvents := true } := rfl

lemma processLine_turnLine (s : ParseSt) (p : Player) :
    processLine s ("Turn: ".data ++ playerStr p) = { s with st.turn := p } := by
  cases p <;> rfl

lemma processLine_p1Line (s : ParseSt) (n : Int) :
    processLine s ("Player1: ".data ++ intToStr n) = { s with st.pos1 := max 0 n } := by
  have h0 : ("Player1: ".data ++ intToStr n).isEmpty = false := rfl
  have h1 : startsWith "#".data ("Player1: ".data ++ intToStr n) = false := rfl
  have h2 : startsWith "turn:".data (lower ("Player1: ".data ++ intToStr n)) = false := rfl
  have h3 : startsWith "player1:".data (lower ("Player1: ".data ++ intToStr n)) = true := rfl
  unfold processLine
  rw [h0, h1, h2, h3]
  simp only [Bool.or_self, Bool.false_eq_true, if_false, if_true]
  rw [show afterColon ("Player1: ".data ++ intToStr n) = ' ' :: intToStr n from rfl]
  rw [pyIntParse_space_cons, pyIntParse_intToStr]

lemma processLine_p2Line (s : ParseSt) (n : Int) :
    processLine s ("Player2: ".data ++ intToStr n) = { s with st.pos2 := max 0 n } := by
  have h0 : ("Player2: ".data ++ intToStr n).isEmpty = false := rfl
  have h1 : startsWith "#".data ("Player2: ".data ++ intToStr n) = false := rfl
  have h2 : startsWith "turn:".data (lower ("Player2: ".data ++ intToStr n)) = false := rfl
  have h3 : startsWith "player1:".data (lower ("Player2: ".data ++ intToStr n)) = false := rfl
  have h4 : startsWith "player2:".data (lower ("Player2: ".data ++ intToStr n)) = true := rfl
  unfold processLine
  rw [h0, h1, h2, h3, h4]
  simp only [Bool.or_self, Bool.false_eq_true, if_false, if_true]
  rw [show afterColon ("Player2: ".data ++ intToStr n) = ' ' :: intToStr n from rfl]
  rw [pyIntParse_space_cons, pyIntParse_intToStr]

/-- Parsing one serialized event-table line in events mode extends the
events dict with exactly the stored tile and name list. -/
lemma processLine_eventLine (s : ParseSt) (E : List (Int × List Str)) (t : Int)
    (hm : s.modeEvents = true)
    (hne : dictGet E t ≠ [])
    (hwf : ∀ n ∈ dictGet E t, nameWF n) :
    processLine s (eventLine E t) =
      { s with st.events := dictExtend s.st.events t (dictGet E t) } := by
  obtain ⟨c, crest, hrep, hc⟩ := intToStr_head t
  have hline : eventLine E t =
      c :: (crest ++ ':' :: (' ' :: joinSep ", ".data (dictGet E t))) := by
    unfold eventLine
    rw [hrep]
    simp
  have hnocolon : containsChar (c :: crest) ':' = false := by
    rw [← hrep]
    exact containsChar_intToStr t ':' (by decide) (by decide)
  have hnocomma : ∀ n ∈ dictGet E t, containsChar n ',' = false :=
    fun n hn => (hwf n hn).2.2.2.1
  rw [hline, processLine_head_plain s c _ hc, if_pos hm]
  have hcontains :
      containsChar (c :: (crest ++ ':' :: (' ' :: joinSep ", ".data (dictGet E t)))) ':'
        = true := by
    rw [containsChar_cons, containsChar_append, containsChar_cons]
    simp
  rw [hcontains]
  rw [show (!true) = false from rfl]
  simp only [Bool.false_eq_true, if_false]
  have hsplit :
      splitFirstColon (c :: (crest ++ ':' :: (' ' :: joinSep ", ".data (dictGet E t)))) =
        (c :: crest, ' ' :: joinSep ", ".data (dictGet E t)) := by
    rw [show c :: (crest ++ ':' :: (' ' :: joinSep ", ".data (dictGet E t))) =
        (c :: crest) ++ ':' :: (' ' :: joinSep ", ".data (dictGet E t)) from rfl]
    exact splitFirstColon_append _ _ hnocolon
  rw [hsplit]
  dsimp only
  rw [← hrep, strip_intToStr, pyIntParse_intToStr]
  dsimp only
  rw [splitOn_comma_join (dictGet E t) hne hnocomma]
  rw [List.filterMap_map]
  have hfm : (dictGet E t).filterMap
      ((fun e => if (strip e).isEmpty then none else some (capitalize (strip e))) ∘
        fun n => ' ' :: n) = dictGet E t := by
    apply filterMap_id_of
    intro n hn
    obtain ⟨hn1, hn2, hn3, _, _⟩ := hwf n hn
    show (if (strip (' ' :: n)).isEmpty then none else some (capitalize (strip (' ' :: n))))
      = some n
    rw [strip_cons_space, hn2]
    rw [if_neg (by
      intro hcc
      exact hn1 (List.isEmpty_iff.mp hcc))]
    rw [hn3]
  rw [hfm]
  rw [if_neg (by
    intro hcc
    exact hne (List.isEmpty_iff.mp hcc))]

/-- Folding the parser over all serialized event lines accumulates the
whole table. -/
lemma foldl_processLine_eventLines (E : List (Int × List Str)) (ts : List Int)
    (s : ParseSt) (hm : s.modeEvents = true)
    (h : ∀ t ∈ ts, dictGet E t ≠ [] ∧ ∀ n ∈ dictGet E t, nameWF n) :
    List.foldl processLine s (ts.map (eventLine E)) =
      { s with st.events :=
          ts.foldl (fun d t => dictExtend d t (dictGet E t)) s.st.events } := by
  induction ts generalizing s with
  | nil => rfl
  | cons t rest ih =>
    rw [List.map_cons, List.foldl_cons]
    rw [processLine_eventLine s E t hm (h t (List.mem_cons_self t rest)).1
      (h t (List.mem_cons_self t rest)).2]
    rw [ih { s with st.events := dictExtend s.st.events t (dictGet E t) } hm
      fun u hu => h u (List.mem_cons_of_mem t hu)]
    rw [List.foldl_cons]

/-! ### Final assembly of the round trip -/

lemma map_id_of (l : List Str) (f : Str → Str) (h : ∀ x ∈ l, f x = x) : l.map f = l := by
  induction l with
  | nil => rfl
  | cons x rest ih =>
    rw [List.map_cons, h x (List.mem_cons_self x rest),
      ih fun y hy => h y (List.mem_cons_of_mem x hy)]

lemma intToStr_ne_nil (i : Int) : intToStr i ≠ [] := by
  obtain ⟨c, rest, hrep, _⟩ := intToStr_head i
  rw [hrep]
  simp

lemma winnerStage_inrange (g : GameState) (hp1 : g.pos1 ≤ LAST_TILE)
    (hp2 : g.pos2 ≤ LAST_TILE) (hw : g.winner = none) :
    winnerStage g = { g with winner := recomputedWinner g.pos1 g.pos2 } := by
  unfold winnerStage
  by_cases a : LAST_TILE ≤ g.pos1
  · rw [if_pos a]
    by_cases b : LAST_TILE ≤ g.pos2
    · rw [if_pos b]
      unfold recomputedWinner
      rw [if_pos b]
      simp only [GameState.mk.injEq, and_true, true_and]
      exact ⟨le_antisymm a hp1, le_antisymm b hp2⟩
    · rw [if_neg b]
      unfold recomputedWinner
      rw [if_neg b, if_pos a]
      simp only [GameState.mk.injEq, and_true, true_and]
      exact le_antisymm a hp1
  · rw [if_neg a]
    by_cases b : LAST_TILE ≤ g.pos2
    · rw [if_pos b]
      unfold recomputedWinner
      rw [if_pos b]
      simp only [GameState.mk.injEq, and_true, true_and]
      exact le_antisymm b hp2
    · rw [if_neg b]
      unfold recomputedWinner
      rw [if_neg b, if_neg a, ← hw]

lemma dictEqvB_of_pointwise (F E : List (Int × List Str))
    (h : ∀ k, dictGetOpt F k = dictGetOpt E k) : dictEqvB F E = true := by
  unfold dictEqvB
  rw [Bool.and_eq_true]
  constructor <;> rw [List.all_eq_true] <;> intro k _ <;> rw [h k] <;>
    exact decide_eq_true rfl

lemma dictGetOpt_eq_some_of_mem (E : List (Int × List Str)) (k : Int)
    (h : k ∈ E.map fun pr => pr.1) : dictGetOpt E k = some (dictGet E k) := by
  rcases ho : dictGetOpt E k with _ | v
  · exact absurd ((dictGetOpt_isSome_iff_mem E k).mpr h) (by rw [ho]; simp)
  · rw [dictGet_eq_getOpt, ho]
    rfl

/-- C5 (amended): parsing the serialized form returns a Python-equal state
for every state whose positions are in `[0, LAST_TILE]`, whose winner is
exactly the value the parser recomputes from the positions, and whose
events table is well-formed: distinct tile keys, nonempty per-tile lists,
and every stored name nonempty, fixed under `strip` and `capitalize`, and
free of `','` and newline characters. -/
theorem claim_C5_roundtrip (st : GameState)
    (h1 : 0 ≤ st.pos1) (h2 : st.pos1 ≤ LAST_TILE)
    (h3 : 0 ≤ st.pos2) (h4 : st.pos2 ≤ LAST_TILE)
    (hw : st.winner = recomputedWinner st.pos1 st.pos2)
    (hE : eventsWF st.events) :
    pyStateEq (parse_game_file (some (write_game_file st))) st = true := by
  obtain ⟨hnodup, hwfE⟩ := hE
  set ts := sortInts (st.events.map fun pr => pr.1) with hts
  have hwfc : ∀ t ∈ ts, dictGet st.events t ≠ [] ∧
      ∀ n ∈ dictGet st.events t, nameWF n := by
    intro t ht
    have hmem : t ∈ st.events.map fun pr => pr.1 := (mem_sortInts _ t).mp (hts ▸ ht)
    exact hwfE _ (mem_pair_of_mem_keys st.events t hmem)
  have hevl : (if st.events.isEmpty then ([] : List Str)
      else ts.map (eventLine st.events)) = ts.map (eventLine st.events) := by
    by_cases hE0 : st.events.isEmpty
    · rw [if_pos hE0]
      have hnil : st.events = [] := List.isEmpty_iff.mp hE0
      rw [hts, hnil]
      rfl
    · rw [if_neg hE0]
  have hwrite : write_game_file st =
      joinSep ['\n']
        ([ "Turn: ".data ++ playerStr st.turn,
           "Player1: ".data ++ intToStr st.pos1,
           "Player2: ".data ++ intToStr st.pos2,
           [],
           "Events:".data ] ++ ts.map (eventLine st.events)) := by
    unfold write_game_file
    dsimp only
    rw [← hts, hevl]
  have hnl : ∀ l ∈ ([ "Turn: ".data ++ playerStr st.turn,
           "Player1: ".data ++ intToStr st.pos1,
           "Player2: ".data ++ intToStr st.pos2,
           ([] : Str),
           "Events:".data ] ++ ts.map (eventLine st.events)),
      containsChar l '\n' = false := by
    intro l hl
    rcases List.mem_append.mp hl with hl | hl
    · simp only [List.mem_cons, List.mem_singleton] at hl
      rcases hl with rfl | rfl | rfl | rfl | (rfl | hf)
      · cases st.turn <;> decide
      · rw [containsChar_append,
          show containsChar ("Player1: ".data) '\n' = false from by decide,
          containsChar_intToStr st.pos1 '\n' (by decide) (by decide)]
        rfl
      · rw [containsChar_append,
          show containsChar ("Player2: ".data) '\n' = false from by decide,
          containsChar_intToStr st.pos2 '\n' (by decide) (by decide)]
        rfl
      · rfl
      · decide
      · cases hf
    · obtain ⟨t, ht, rfl⟩ := List.mem_map.mp hl
      unfold eventLine
      rw [containsChar_append, containsChar_append,
        containsChar_intToStr t '\n' (by decide) (by decide),
        show containsChar (": ".data) '\n' = false from by decide,
        containsChar_joinSep (", ".data) _ '\n' (by decide)
          fun n hn => ((hwfc t ht).2 n hn).2.2.2.2]
      rfl
  have hstriplines : ∀ l ∈ ([ "Turn: ".data ++ playerStr st.turn,
           "Player1: ".data ++ intToStr st.pos1,
           "Player2: ".data ++ intToStr st.pos2,
           ([] : Str),
           "Events:".data ] ++ ts.map (eventLine st.events)),
      strip l = l := by
    intro l hl
    rcases List.mem_append.mp hl with hl | hl
    · simp only [List.mem_cons, List.mem_singleton] at hl
      rcases hl with rfl | rfl | rfl | rfl | (rfl | hf)
      · cases st.turn <;> decide
      · apply strip_eq_self
        · intro c hc
          rw [show (("Player1: ".data ++ intToStr st.pos1)).head? = some 'P' from rfl] at hc
          injection hc with hc
          subst hc
          decide
        · intro c hc
          rw [List.getLast?_append_of_ne_nil _ (intToStr_ne_nil st.pos1)] at hc
          exact last_not_space_of_strip _ (strip_intToStr st.pos1) c hc
      · apply strip_eq_self
        · intro c hc
          rw [show (("Player2: ".data ++ intToStr st.pos2)).head? = some 'P' from rfl] at hc
          injection hc with hc
          subst hc
          decide
        · intro c hc
          rw [List.getLast?_append_of_ne_nil _ (intToStr_ne_nil st.pos2)] at hc
          exact last_not_space_of_strip _ (strip_intToStr st.pos2) c hc
      · rfl
      · decide
      · cases hf
    · obtain ⟨t, ht, rfl⟩ := List.mem_map.mp hl
      obtain ⟨hne, hwfn⟩ := hwfc t ht
      have hJne : joinSep ", ".data (dictGet st.events t) ≠ [] :=
        joinSep_ne_nil _ _ hne fun n hn => (hwfn n hn).1
      apply strip_eq_self
      · intro c hc
        obtain ⟨d, rest, hrep, hd⟩ := intToStr_head t
        rw [show eventLine st.events t =
            intToStr t ++ (": ".data ++ joinSep ", ".data (dictGet st.events t)) from by
          unfold eventLine; rw [List.append_assoc]] at hc
        rw [hrep] at hc
        rw [show ((d :: rest) ++ (": ".data ++ joinSep ", ".data (dictGet st.events t))).head?
            = some d from rfl] at hc
        injection hc with hc
        subst hc
        rcases hd with hd | rfl
        · exact isSpace_eq_false_of_digit hd
        · decide
      · intro c hc
        rw [show eventLine st.events t =
            (intToStr t ++ ": ".data) ++ joinSep ", ".data (dictGet st.events t) from by
          unfold eventLine; rw [List.append_assoc]] at hc
        rw [List.getLast?_append_of_ne_nil _ hJne] at hc
        obtain ⟨x, hx, hlast⟩ := getLast?_joinSep (", ".data) (dictGet st.events t) hne
          fun n hn => (hwfn n hn).1
        rw [hlast] at hc
        exact last_not_space_of_strip _ ((hwfn x hx).2.1) c hc
  -- the parse of the serialized text, line by line
  have hsplitlines : (splitOn '\n' (write_game_file st)).map strip =
      ([ "Turn: ".data ++ playerStr st.turn,
         "Player1: ".data ++ intToStr st.pos1,
         "Player2: ".data ++ intToStr st.pos2,
         ([] : Str),
         "Events:".data ] ++ ts.map (eventLine st.events)) := by
    rw [hwrite, splitOn_joinSep '\n' _ (by simp) hnl]
    exact map_id_of _ _ hstriplines
  have hraw : rawParse ((splitOn '\n' (write_game_file st)).map strip) =
      { turn := st.turn, pos1 := max 0 st.pos1, pos2 := max 0 st.pos2,
        events := ts.map fun t => (t, dictGet st.events t), winner := none } := by
    rw [hsplitlines]
    unfold rawParse
    rw [List.foldl_append]
    rw [show List.foldl processLine ⟨defaultState, false⟩
        [ "Turn: ".data ++ playerStr st.turn,
          "Player1: ".data ++ intToStr st.pos1,
          "Player2: ".data ++ intToStr st.pos2,
          ([] : Str),
          "Events:".data ] =
        ⟨{ turn := st.turn, pos1 := max 0 st.pos1, pos2 := max 0 st.pos2,
           events := [], winner := none }, true⟩ from by
      simp only [List.foldl_cons, List.foldl_nil]
      rw [processLine_turnLine, processLine_p1Line, processLine_p2Line,
        processLine_blank, processLine_eventsHeader]
      rfl]
    rw [foldl_processLine_eventLines st.events ts _ rfl hwfc]
    show ({ turn := st.turn, pos1 := max 0 st.pos1, pos2 := max 0 st.pos2,
            events := ts.foldl (fun d t => dictExtend d t (dictGet st.events t)) [],
            winner := none } : GameState) = _
    rw [foldl_dictExtend_fresh (fun t => dictGet st.events t) ts []
      (by intro t _; simp) (by rw [hts]; exact nodup_sortInts _ hnodup)]
    rw [List.nil_append]
  have hclamp : clampStage
      { turn := st.turn, pos1 := max 0 st.pos1, pos2 := max 0 st.pos2,
        events := ts.map fun t => (t, dictGet st.events t), winner := none } =
      { turn := st.turn, pos1 := st.pos1, pos2 := st.pos2,
        events := ts.map fun t => (t, dictGet st.events t), winner := none } := by
    unfold clampStage
    simp only [GameState.mk.injEq, and_true, true_and]
    refine ⟨?_, ?_⟩
    · rw [max_eq_right h1, min_eq_right h2, max_eq_right h1]
    · rw [max_eq_right h3, min_eq_right h4, max_eq_right h3]
  have hwinner := winnerStage_inrange
    { turn := st.turn, pos1 := st.pos1, pos2 := st.pos2,
      events := ts.map fun t => (t, dictGet st.events t), winner := none } h2 h4 rfl
  have hparse : parse_game_file (some (write_game_file st)) =
      { turn := st.turn, pos1 := st.pos1, pos2 := st.pos2,
        events := ts.map fun t => (t, dictGet st.events t),
        winner := recomputedWinner st.pos1 st.pos2 } := by
    show parseLines ((splitOn '\n' (write_game_file st)).map strip) = _
    unfold parseLines
    rw [hraw, hclamp, hwinner]
  have hdict : dictEqvB (ts.map fun t => (t, dictGet st.events t)) st.events = true := by
    apply dictEqvB_of_pointwise
    intro k
    rw [dictGetOpt_tabulate]
    by_cases hk : k ∈ ts
    · rw [if_pos hk]
      exact (dictGetOpt_eq_some_of_mem st.events k
        ((mem_sortInts _ k).mp (by rw [← hts]; exact hk))).symm
    · rw [if_neg hk]
      exact (dictGetOpt_none_of_not_mem st.events k
        fun hc => hk (by rw [hts]; exact (mem_sortInts _ k).mpr hc)).symm
  rw [hparse]
  unfold pyStateEq
  dsimp only
  rw [hw, hdict]
  simp

theorem claim_C5_roundtrip_witness :
    pyStateEq
      (parse_game_file (some (write_game_file
        { turn := .P2, pos1 := 17, pos2 := 100,
          events := [(7, ["Treasure".data, "Portal".data]), (2, ["Portal".data])],
          winner := some .P2 })))
      { turn := .P2, pos1 := 17, pos2 := 100,
        events := [(7, ["Treasure".data, "Portal".data]), (2, ["Portal".data])],
        winner := some .P2 } = true :=
  claim_C5_roundtrip _ (by decide) (by decide) (by decide) (by decide) (by decide)
    (by decide)

end BoardGame
